import Mathlib

/-!
Verification development for the pyLookingGlassClient repository: a shallow
embedding in Lean 4 of the shared-memory ring reader (`lgmp_ring.py`), the
preflight / acknowledgement discovery (`lgmp_preflight.py`, `lgmp_profile.py`),
the signal health monitor (`lg_signal_monitor.py`), the health thread of
`main.py`, and the scroll handling of the input proxy (`input_vnc.py`),
together with theorems settling the stated properties of those components.

Machine integers are modelled as `Nat`/`Int` with explicit reduction modulo
`2^32` exactly where the Python source masks with `0xFFFFFFFF`; byte strings
are `List Nat`; wall-clock time and frame rates are `ℚ`.  Behaviour that
depends on real time or on the co-resident producer (how far the producer
index advances during a probe window, how many iterations a timed loop runs)
is supplied by explicit environment parameters.
-/

namespace LGClient


/-! ## Segment model

A mapped shared-memory segment: a byte size and the byte content, as the
reader sees it at one instant.  `pySlice` is Python's `mm[a:b]` for
`0 ≤ a ≤ b`: the bytes from `a` up to (exclusive) `b`, clamped to the
segment's size. -/

structure Segment where
  size : Nat
  mem : Nat → Nat

def pySlice (mem : Nat → Nat) (size a b : Nat) : List Nat :=
  (List.range' a (min b size - a)).map mem

/-! ## RingReader (`lgmp_ring.py`, class LGMPv6)

Geometry fields are the constructor arguments of `LGMPv6`; the file
descriptor / mmap plumbing is carried by `Segment`. -/

structure Geometry where
  fb_w : Nat
  fb_h : Nat
  pitch : Nat
  bpp : Nat
  idx_off : Nat
  nbuf : Nat
  force_offset : Option Int
  force_slot : Nat

/-- `LGMPv6.current_slot`: with a forced absolute offset the configured slot
is returned unchanged, otherwise the producer index word modulo `nbuf`. -/
def current_slot (g : Geometry) (idx : Nat) : Nat :=
  match g.force_offset with
  | some _ => g.force_slot
  | none => idx % g.nbuf

/-- `LGMPv6.slot_offset`: `force_offset + slot * (pitch * fb_h)` when an
absolute offset is forced, else the heuristic base 4096. -/
def slot_offset (g : Geometry) (slot : Int) : Int :=
  let fsz : Int := (g.pitch * g.fb_h : Nat)
  match g.force_offset with
  | some fo => fo + slot * fsz
  | none => 4096 + slot * fsz

/-- One iteration step of the repack loop of `LGMPv6.read_frame_tight`:
`out[dst:dst+tight] = mm[src:src+tight]` as a list splice (Python bytearray
slice assignment replaces the `tight` positions at `dst` by the chunk). -/
def spliceAt (out : List Nat) (dst : Nat) (chunk : List Nat) (tight : Nat) :
    List Nat :=
  out.take dst ++ chunk ++ out.drop (dst + tight)

/-- The `for _ in range(self.fb_h)` repack loop of `read_frame_tight`,
with the source cursor advancing by `pitch` and the destination cursor by
`tight` per row. -/
def repack_go (mem : Nat → Nat) (size pitch tight : Nat) :
    Nat → List Nat → Nat → Nat → List Nat
  | 0, out, _, _ => out
  | n + 1, out, src, dst =>
      repack_go mem size pitch tight n
        (spliceAt out dst (pySlice mem size src (src + tight)) tight)
        (src + pitch) (dst + tight)

/-- `LGMPv6.read_frame_tight`: bounds check, direct slice when the pitch is
already tight, otherwise the row-by-row repack into a fresh zeroed buffer of
`fb_w * fb_h * bpp` bytes. -/
def read_frame_tight (g : Geometry) (seg : Segment) (slot : Int) :
    Option (List Nat) :=
  let off := slot_offset g slot
  let fsz : Nat := g.pitch * g.fb_h
  if off < 0 ∨ (seg.size : Int) < off + fsz then none
  else if g.pitch = g.fb_w * g.bpp then
    some (pySlice seg.mem seg.size off.toNat (off.toNat + fsz))
  else
    some (repack_go seg.mem seg.size g.pitch (g.fb_w * g.bpp) g.fb_h
      (List.replicate (g.fb_w * g.fb_h * g.bpp) 0) off.toNat 0)

/-- The slot extent of slot `slot` lies inside the segment. -/
def slotFits (g : Geometry) (seg : Segment) (slot : Int) : Prop :=
  0 ≤ slot_offset g slot ∧
    slot_offset g slot + (g.pitch * g.fb_h : Nat) ≤ (seg.size : Int)

/-- The sequence of tight source rows the repack loop reads: row `i` is the
`tight` segment bytes starting at `src + i * pitch`. -/
def rowsSpec (mem : Nat → Nat) (pitch tight : Nat) : Nat → Nat → List (List Nat)
  | _, 0 => []
  | src, n + 1 =>
      (List.range' src tight).map mem :: rowsSpec mem pitch tight (src + pitch) n

/-! ## Preflight (`lgmp_preflight.py`, `lgmp_profile.py`)

The segment is word-addressed here: `mem off` is the little-endian u32 read
`_u32(mm, off)`, `updateW` the store `_p32(mm, off, v)`.  A `_u32`/`_p32` at
`off` with `off + 4 > size` raises `struct.error` in Python; the model
reports it as the `oob` outcome.  Producer behaviour during the timed probe
windows is an explicit environment `ProbeEnv`: the index values sampled at
the start and end of the quiet window and of each mode's pulse window while
candidate `off` is probed. -/

/-- Python's `(a - b) & 0xFFFFFFFF` on arbitrary (possibly negative)
difference of two non-negative ints: subtraction modulo `2^32`. -/
def wrap32 (a b : Nat) : Nat := (((a : Int) - (b : Int)) % 4294967296).toNat

/-- `_idx_delta`: the producer-index delta over a quiet window, computed from
the two sampled index values as `(end - start) & 0xFFFFFFFF`. -/
def _idx_delta (start endv : Nat) : Nat := wrap32 endv start

/-- The three acknowledgement write modes of `_pulse_once`. -/
inductive Mode
  | inc32
  | mirror
  | toggle1
deriving DecidableEq

/-- The fixed mode order of the `for mode in ("inc32", "mirror", "toggle1")`
loop in `_score_candidate`. -/
def modeOrder : List Mode := [.inc32, .mirror, .toggle1]

/-- Index samples the producer yields during the probe of a candidate offset:
`quietStart off`/`quietEnd off` around the quiet window, and
`pulseStart off m`/`pulseEnd off m` around mode `m`'s pulse window. -/
structure ProbeEnv where
  quietStart : Nat → Nat
  quietEnd : Nat → Nat
  pulseStart : Nat → Mode → Nat
  pulseEnd : Nat → Mode → Nat

/-- The pulse delta `dp` of `_score_candidate` for one mode:
`(_u32(idx_off) - p0) & 0xFFFFFFFF`. -/
def pulseDp (env : ProbeEnv) (off : Nat) (m : Mode) : Nat :=
  _idx_delta (env.pulseStart off m) (env.pulseEnd off m)

/-- The `best_mode, best_dp` fold of `_score_candidate`: starts at
`(None, -1)` and replaces the best on strictly greater `dp`. -/
def bestOf (env : ProbeEnv) (off : Nat) : Option Mode × Int :=
  modeOrder.foldl
    (fun acc m =>
      if acc.2 < (pulseDp env off m : Int) then (some m, (pulseDp env off m : Int))
      else acc)
    (none, -1)

/-- The quiet delta `dq` of `_score_candidate` (via `_idx_delta`). -/
def quietDq (env : ProbeEnv) (off : Nat) : Nat :=
  _idx_delta (env.quietStart off) (env.quietEnd off)

/-- Outcome of a candidate scan in `_find_ack`. -/
inductive ScanRes
  | oob
  | exhausted
  | found (off : Nat) (mode : Option Mode)
deriving DecidableEq

/-- The inner `scan` of `_find_ack` over one candidate list: skip `idx_off`
and already-tried offsets, add to `tried`, score, and return the first
candidate with `dp ≥ dq + margin`; probing an offset whose u32 access leaves
the segment raises (`oob`).  The returned list is the final `tried` set (its
elements are the probed offsets — every probe write targets its candidate). -/
def scan (S : Nat) (env : ProbeEnv) (idx_off margin : Nat) :
    List Nat → List Nat → List Nat × ScanRes
  | tried, [] => (tried, .exhausted)
  | tried, off :: rest =>
      if off = idx_off ∨ off ∈ tried then scan S env idx_off margin tried rest
      else if idx_off + 4 ≤ S ∧ off + 4 ≤ S then
        if ((quietDq env off : Int) + margin ≤ (bestOf env off).2) then
          (off :: tried, .found off (bestOf env off).1)
        else scan S env idx_off margin (off :: tried) rest
      else (off :: tried, .oob)

/-- Python `range(s, e, 4)`. -/
def pyRange4 (s e : Nat) : List Nat :=
  (List.range ((e - s + 3) / 4)).map (fun i => s + 4 * i)

/-- `_find_ack`: scan the configured ranges (flattened in order at 4-byte
stride), then the bounded fallback, sharing the `tried` set. -/
def _find_ack (S : Nat) (env : ProbeEnv) (idx_off : Nat)
    (ranges : List (Nat × Nat)) (fallback : Nat × Nat) (margin : Nat) :
    List Nat × ScanRes :=
  let small := ranges.flatMap fun p => pyRange4 p.1 p.2
  match scan S env idx_off margin [] small with
  | (tried, .exhausted) =>
      scan S env idx_off margin tried (pyRange4 fallback.1 fallback.2)
  | r => r

/-- `lgmp_profile.SET_BITS`, in its (insertion-ordered) dict order. -/
def SET_BITS : List (Nat × Nat) :=
  [(0x28, 0x00000001), (0x138, 0x436C6125), (0x1C4, 0x00000001),
   (0x4A8, 0x00000001), (0x5B0, 0x436C6125), (0x63C, 0x00000001),
   (0x640, 0x00000001), (0x648, 0x000101F4)]

def IDX_OFF_DEFAULT : Nat := 0x10

def FLAG_OFF_DEFAULT : Nat := 0x13C

def FLAG_MASK_DEFAULT : Nat := 0x00000004

def ACK_RANGES_DEFAULT : List (Nat × Nat) := [(0x14, 0x200), (0x200, 0x400)]

def ACK_FALLBACK_DEFAULT : Nat × Nat := (0x40, 0x20000)

/-- A u32 store into the word map (`_p32` keeps `val & 0xFFFFFFFF`). -/
def updateW (m : Nat → Nat) (off v : Nat) : Nat → Nat :=
  fun o => if o = off then v &&& 0xFFFFFFFF else m o

/-- Errors `warm_boot_and_find_ack` can raise: the missing-magic
`RuntimeError("Not LGMP")`, a `struct.error` from an out-of-bounds u32
access, and the `RuntimeError("Could not locate ACK ...")`. -/
inductive PfError
  | notLGMP
  | oob
  | ackNotFound
deriving DecidableEq

/-- The `for off, mask in SET_BITS.items()` loop of `warm_boot_and_find_ack`:
skip the index word, read the live word, OR the mask in, and write back only
if bits were missing.  Returns the final word map, the writes issued
(offset, stored value), and an error if a read/write left the segment. -/
def set_bits_go (S idx_off : Nat) :
    List (Nat × Nat) → (Nat → Nat) → List (Nat × Nat) →
    ((Nat → Nat) × List (Nat × Nat)) × Option PfError
  | [], m, ws => ((m, ws), none)
  | p :: rest, m, ws =>
      if p.1 = idx_off then set_bits_go S idx_off rest m ws
      else if p.1 + 4 ≤ S then
        if m p.1 ||| (p.2 &&& 0xFFFFFFFF) ≠ m p.1 then
          set_bits_go S idx_off rest
            (updateW m p.1 (m p.1 ||| (p.2 &&& 0xFFFFFFFF)))
            (ws ++ [(p.1, (m p.1 ||| (p.2 &&& 0xFFFFFFFF)) &&& 0xFFFFFFFF)])
        else set_bits_go S idx_off rest m ws
      else ((m, ws), some .oob)

/-- Applying the whole set-bits table (step 2 of the preflight). -/
def apply_set_bits (S idx_off : Nat) (mem : Nat → Nat) :
    ((Nat → Nat) × List (Nat × Nat)) × Option PfError :=
  set_bits_go S idx_off SET_BITS mem []

/-- `_ensure_connected`: read the flag word and OR the mask in when the
masked bit is clear.  Second component: offsets written. -/
def _ensure_connected (S flag_off flag_mask : Nat) (mem : Nat → Nat) :
    ((Nat → Nat) × List Nat) × Option PfError :=
  if flag_off + 4 ≤ S then
    if mem flag_off &&& flag_mask = 0 then
      ((updateW mem flag_off (mem flag_off ||| flag_mask), [flag_off]), none)
    else ((mem, []), none)
  else ((mem, []), some .oob)

/-- `warm_boot_and_find_ack`, as the pair (offsets of every u32 store the
call issues, in order; result or error).  `magic` abstracts the
`mm[:4] == b"LGMP"` check; `pumpIters` the number of iterations the timed
warm-pump loop runs (each iteration's `_pulse_once` writes only `ack_off`,
so the pump contributes `pumpIters` copies of `ack_off`; likewise each
probed candidate's pulse writes target exactly that candidate, so the scan
contributes its `tried` list). -/
def warm_boot_and_find_ack (S : Nat) (magic : Bool) (mem0 : Nat → Nat)
    (env : ProbeEnv) (pumpIters : Nat) (idx_off flag_off flag_mask : Nat)
    (ranges : List (Nat × Nat)) (fallback : Nat × Nat) (margin : Nat) :
    List Nat × Except PfError (Nat × Option Mode) :=
  if magic = false then ([], .error .notLGMP)
  else
    match _ensure_connected S flag_off flag_mask mem0 with
    | ((_, w1), some e) => (w1, .error e)
    | ((m1, w1), none) =>
        match apply_set_bits S idx_off m1 with
        | ((_, ws), some e) => (w1 ++ ws.map Prod.fst, .error e)
        | ((_, ws), none) =>
            match _find_ack S env idx_off ranges fallback margin with
            | (tried, .oob) =>
                (w1 ++ ws.map Prod.fst ++ tried, .error .oob)
            | (tried, .exhausted) =>
                (w1 ++ ws.map Prod.fst ++ tried, .error .ackNotFound)
            | (tried, .found ack mode) =>
                (w1 ++ ws.map Prod.fst ++ tried ++
                  List.replicate pumpIters ack, .ok (ack, mode))

/-! Specification-side notions for the acknowledgement scan (phrased from the
scan description: candidate order, best mode by greatest pulse delta with
ties to the earlier mode, margin test on the best delta). -/

/-- The candidate stream in scan order: the configured ranges at 4-byte
stride, then the fallback range. -/
def candStream (ranges : List (Nat × Nat)) (fallback : Nat × Nat) : List Nat :=
  (ranges.flatMap fun p => pyRange4 p.1 p.2) ++ pyRange4 fallback.1 fallback.2

/-- The greatest pulse delta among the three modes. -/
def maxPulse (env : ProbeEnv) (off : Nat) : Nat :=
  (modeOrder.map (pulseDp env off)).foldr max 0

/-- The mode with the greatest pulse delta, ties resolved to the earlier
mode in `modeOrder`. -/
def bestModeSpec (env : ProbeEnv) (off : Nat) : Option Mode :=
  modeOrder.find? fun m => pulseDp env off m = maxPulse env off

/-- The margin test `Δp ≥ Δq + margin` on a candidate's best pulse delta. -/
def passes (env : ProbeEnv) (margin off : Nat) : Bool :=
  quietDq env off + margin ≤ maxPulse env off

/-- A producer environment in which the index never moves: every sampled
index value is 0, so every quiet and pulse delta is 0. -/
def probeEnv0 : ProbeEnv :=
  ⟨fun _ => 0, fun _ => 0, fun _ _ => 0, fun _ _ => 0⟩

/-- A producer environment responding only to `mirror` pulses at offset
`0x18`: there the sampled index moves from 0 to 5 across that pulse window. -/
def probeEnvW : ProbeEnv :=
  ⟨fun _ => 0, fun _ => 0, fun _ _ => 0,
    fun o m => if o = 0x18 ∧ m = Mode.mirror then 5 else 0⟩

instance {e a : Type} [DecidableEq e] [DecidableEq a] :
    DecidableEq (Except e a) := fun x y =>
  match x, y with
  | .ok x1, .ok y1 =>
      if h : x1 = y1 then isTrue (by rw [h])
      else isFalse (by intro hc; injection hc; contradiction)
  | .error x1, .error y1 =>
      if h : x1 = y1 then isTrue (by rw [h])
      else isFalse (by intro hc; injection hc; contradiction)
  | .ok _, .error _ => isFalse (by intro hc; exact Except.noConfusion hc)
  | .error _, .ok _ => isFalse (by intro hc; exact Except.noConfusion hc)

/-! ## Signal monitor (`lg_signal_monitor.py`)

Wall-clock timestamps and rates are `ℚ` (the float `1e-6` floor and `0.9`
factor become the exact rationals they denote).  A watched word's history is
the `Ring3` content, newest last, as `(timestamp, value)` pairs. -/

/-- `RateMeter.rate`: 0 with fewer than two samples, else the first/last
value difference over the elapsed time (floored at `1e-6`), clamped below
at 0.  The samples are the meter's deque, oldest first. -/
def rate (samples : List (ℚ × Nat)) : ℚ :=
  if samples.length < 2 then 0
  else
    match samples.head?, samples.getLast? with
    | some (t0, v0), some (t1, v1) =>
        max 0 (((v1 : ℚ) - (v0 : ℚ)) / max (1 / 1000000) (t1 - t0))
    | _, _ => 0

/-- The predicate variants `PredEq`, `PredNZ`, `PredOneOf`, `PredRecentEq`
(`val`/`vals` as constructed; `winMs` the constructor's `window_ms`). -/
inductive Pred
  | eq (val : Nat)
  | nz
  | oneOf (vals : List Nat)
  | recentEq (val : Nat) (winMs : ℚ)

/-- `check(cur, history)` of each predicate class; `now` is the wall clock
`PredRecentEq.check` reads.  `recentEq` walks the history newest-first and
stops at the first record older than the window. -/
def Pred.check (now : ℚ) : Pred → Nat → List (ℚ × Nat) → Bool
  | .eq v, cur, _ => decide (cur = v)
  | .nz, cur, _ => decide (cur ≠ 0)
  | .oneOf vs, cur, _ => decide (cur ∈ vs)
  | .recentEq v w, _, hist =>
      (hist.reverse.takeWhile fun p => decide (now - p.1 ≤ w / 1000)).any
        fun p => decide (p.2 = v)

/-- The `SignalMonitor4` state `_classify` reads: offsets, predicate map
(in iteration order), thresholds, the `last_val` table (default 0), the
per-offset `Ring3` histories and the rate-meter samples. -/
structure Monitor where
  idx_off : Nat
  flag_off : Nat
  flag_mask : Nat
  preds : List (Nat × Pred)
  fps_ok : ℚ
  fps_dead : ℚ
  last_val : Nat → Nat
  hist : Nat → List (ℚ × Nat)
  fpsSamples : List (ℚ × Nat)

inductive Status
  | dead
  | ok
  | problematic
deriving DecidableEq

/-- The reason strings `_classify` produces, as tags: `"fps=…, idx stalled"`,
`"fps=…, mask bit on, predicates pass"`, `"low fps=…"`, `"mask bit off"`,
`"predicates failed"`, `"unknown"`. -/
inductive Reason
  | idxStalled
  | allPass
  | lowFps
  | maskOff
  | predsFailed
  | unknown
deriving DecidableEq

/-- `SignalMonitor4._classify`: rate from the meter, the masked flag bit
(vacuously true on a zero mask), the conjunction of the predicates, then the
decision tree with its assembled reason list (`"unknown"` when empty). -/
def _classify (m : Monitor) (now : ℚ) : Status × List Reason :=
  let fps := rate m.fpsSamples
  let flagv := m.last_val m.flag_off
  let masked : Bool :=
    if m.flag_mask ≠ 0 then decide ((flagv &&& m.flag_mask) ≠ 0) else true
  let preds_ok : Bool :=
    m.preds.all fun p => (p.2).check now (m.last_val p.1) (m.hist p.1)
  if fps ≤ m.fps_dead then (.dead, [.idxStalled])
  else if m.fps_ok ≤ fps ∧ masked = true ∧ preds_ok = true then
    (.ok, [.allPass])
  else
    let reasons :=
      (if fps < m.fps_ok then [Reason.lowFps] else []) ++
      (if masked = false then [Reason.maskOff] else []) ++
      (if preds_ok = false then [Reason.predsFailed] else [])
    (.problematic, if reasons.isEmpty then [.unknown] else reasons)

/-- The claim's decision tree, phrased from the specification: dead on
`fps ≤ fps_dead`; ok on `fps ≥ fps_ok` with the masked bit (vacuously true
when the mask is zero) and all predicates; otherwise problematic with the
reason list assembled exactly from whichever of low-fps / mask-off /
predicates-failed apply. -/
def classifySpec (m : Monitor) (now : ℚ) : Status × List Reason :=
  let fps := rate m.fpsSamples
  let masked : Bool :=
    if m.flag_mask ≠ 0 then decide ((m.last_val m.flag_off &&& m.flag_mask) ≠ 0)
    else true
  let preds_ok : Bool :=
    m.preds.all fun p => (p.2).check now (m.last_val p.1) (m.hist p.1)
  if fps ≤ m.fps_dead then (.dead, [.idxStalled])
  else if m.fps_ok ≤ fps ∧ masked = true ∧ preds_ok = true then
    (.ok, [.allPass])
  else
    (.problematic,
      (if fps < m.fps_ok then [Reason.lowFps] else []) ++
      (if masked = false then [Reason.maskOff] else []) ++
      (if preds_ok = false then [Reason.predsFailed] else []))

/-! ## Health thread (`main.py`) -/

/-- The relaxed override of `HealthThread._loop` / `HealthThread.status`:
`if self.relaxed and status != "dead" and fps >= self.fps_ok * 0.9`,
upgrade to ok. -/
def relaxed_override (relaxed : Bool) (status : Status) (fps fps_ok : ℚ) :
    Status :=
  if relaxed = true ∧ status ≠ Status.dead ∧ fps_ok * (9 / 10) ≤ fps then
    Status.ok
  else status

/-- The `relaxed` argument `main` passes to `HealthThread`:
`args.health_relaxed or True`. -/
def health_relaxed_arg (health_relaxed : Bool) : Bool := health_relaxed || true

/-! ## Input proxy (`input_vnc.py`) -/

/-- `VNCInputProxy._send_pointer`: one RFB PointerEvent, with the mask
truncated to a byte and the coordinates to 16 bits. -/
def send_pointer (x y mask : Nat) : Nat × Nat × Nat :=
  (x &&& 0xFFFF, y &&& 0xFFFF, mask &&& 0xFF)

/-- `VNCInputProxy.on_mouse_button`: GLFW button 0/2/1 to RFB bit 1/2/4,
OR-ed into the mask on press, cleared on release (Python `&= ~bit`). -/
def on_mouse_button (btn_mask : Nat) (button action : Nat) : Nat :=
  let bit := if button = 0 then 1 else if button = 2 then 2
    else if button = 1 then 4 else 0
  if action ≠ 0 then btn_mask ||| bit
  else btn_mask ^^^ (btn_mask &&& bit)

/-- `VNCInputProxy.on_scroll`: the pointer messages sent, in order, and the
`_btn_mask` field after the call.  Vertical wheel first (up 8 / down 16),
then horizontal (right 32 / left 64); each non-zero direction sends the
mask with the wheel bit OR-ed in, then the mask alone. -/
def on_scroll (btn_mask xr yr : Nat) (dx dy : ℚ) :
    List (Nat × Nat × Nat) × Nat :=
  ((if 0 < dy then
      [send_pointer xr yr (btn_mask ||| 8), send_pointer xr yr btn_mask]
    else if dy < 0 then
      [send_pointer xr yr (btn_mask ||| 16), send_pointer xr yr btn_mask]
    else []) ++
   (if 0 < dx then
      [send_pointer xr yr (btn_mask ||| 32), send_pointer xr yr btn_mask]
    else if dx < 0 then
      [send_pointer xr yr (btn_mask ||| 64), send_pointer xr yr btn_mask]
    else []),
   btn_mask)

/-- The claim's wheel pulse: one pointer message with the wheel bit OR-ed
into the current button mask, immediately followed by one with the button
mask alone. -/
def wheelPulse (btn_mask xr yr bit : Nat) : List (Nat × Nat × Nat) :=
  [send_pointer xr yr (btn_mask ||| bit), send_pointer xr yr btn_mask]

/-! ## Theorems -/

lemma pySlice_length (mem : Nat → Nat) (size a b : Nat) :
    (pySlice mem size a b).length = min b size - a := by
  simp [pySlice]

lemma pySlice_of_le (mem : Nat → Nat) {size a b : Nat} (h : b ≤ size) :
    pySlice mem size a b = (List.range' a (b - a)).map mem := by
  simp [pySlice, Nat.min_eq_left h]

lemma spliceAt_length {out chunk : List Nat} {dst tight : Nat}
    (hd : dst + tight ≤ out.length) (hc : chunk.length = tight) :
    (spliceAt out dst chunk tight).length = out.length := by
  simp only [spliceAt, List.length_append, List.length_take, List.length_drop,
    hc]
  omega

lemma repack_go_length (mem : Nat → Nat) (size pitch tight : Nat)
    (hpt : tight ≤ pitch) :
    ∀ (n : Nat) (out : List Nat) (src dst : Nat),
      src + n * pitch ≤ size → dst + n * tight ≤ out.length →
      (repack_go mem size pitch tight n out src dst).length = out.length := by
  intro n
  induction n with
  | zero => intro out src dst _ _; rfl
  | succ n ih =>
      intro out src dst hsrc hdst
      have hrow : src + tight ≤ size := by nlinarith [hsrc]
      have hchunk : (pySlice mem size src (src + tight)).length = tight := by
        rw [pySlice_length]; omega
      have hd : dst + tight ≤ out.length := by nlinarith [hdst]
      rw [repack_go, ih _ _ _ (by nlinarith [hsrc]) (by
        rw [spliceAt_length hd hchunk]; nlinarith [hdst])]
      exact spliceAt_length hd hchunk

/-- C1: with `pitch ≥ fb_w * bpp`, `read_frame_tight` returns a buffer of
length exactly `fb_w * fb_h * bpp` iff the slot extent fits inside the
segment; otherwise it returns `none`. -/
theorem read_frame_tight_length_iff (g : Geometry) (seg : Segment)
    (slot : Int) (hp : g.fb_w * g.bpp ≤ g.pitch) :
    (slotFits g seg slot ↔
      ∃ buf, read_frame_tight g seg slot = some buf ∧
        buf.length = g.fb_w * g.fb_h * g.bpp) ∧
    (¬ slotFits g seg slot → read_frame_tight g seg slot = none) := by
  constructor
  · constructor
    · rintro ⟨h0, hsz⟩
      have hcond : ¬ (slot_offset g slot < 0 ∨
          (seg.size : Int) < slot_offset g slot + (g.pitch * g.fb_h : Nat)) := by
        push_neg; exact ⟨h0, hsz⟩
      have hN : ((slot_offset g slot).toNat : Int) = slot_offset g slot :=
        Int.toNat_of_nonneg h0
      have hszN : (slot_offset g slot).toNat + g.pitch * g.fb_h ≤ seg.size := by
        omega
      by_cases htight : g.pitch = g.fb_w * g.bpp
      · refine ⟨pySlice seg.mem seg.size (slot_offset g slot).toNat
          ((slot_offset g slot).toNat + g.pitch * g.fb_h), ?_, ?_⟩
        · unfold read_frame_tight
          rw [if_neg hcond, if_pos htight]
        · rw [pySlice_length, Nat.min_eq_left hszN, htight]
          ring_nf
          omega
      · refine ⟨repack_go seg.mem seg.size g.pitch (g.fb_w * g.bpp) g.fb_h
          (List.replicate (g.fb_w * g.fb_h * g.bpp) 0)
          (slot_offset g slot).toNat 0, ?_, ?_⟩
        · unfold read_frame_tight
          rw [if_neg hcond, if_neg htight]
        · rw [repack_go_length seg.mem seg.size g.pitch (g.fb_w * g.bpp) hp
            g.fb_h _ (slot_offset g slot).toNat 0 (by nlinarith [hszN]) (by
              simp only [List.length_replicate]; nlinarith)]
          simp
    · rintro ⟨buf, hbuf, _⟩
      by_contra hnf
      have hcond : slot_offset g slot < 0 ∨
          (seg.size : Int) < slot_offset g slot + (g.pitch * g.fb_h : Nat) := by
        by_contra hc; push_neg at hc; exact hnf ⟨hc.1, hc.2⟩
      unfold read_frame_tight at hbuf
      rw [if_pos hcond] at hbuf
      exact Option.noConfusion hbuf
  · intro hnf
    have hcond : slot_offset g slot < 0 ∨
        (seg.size : Int) < slot_offset g slot + (g.pitch * g.fb_h : Nat) := by
      by_contra hc; push_neg at hc; exact hnf ⟨hc.1, hc.2⟩
    unfold read_frame_tight
    rw [if_pos hcond]

/-- Witness for C1 at a concrete geometry: a 2x2, 3-bytes-per-pixel frame with
pitch 8 inside a 16-byte segment, forced to absolute offset 0. -/
theorem read_frame_tight_length_iff_witness :
    ∃ buf, read_frame_tight ⟨2, 2, 8, 3, 16, 1, some 0, 0⟩ ⟨16, fun i => i⟩ 0
        = some buf ∧ buf.length = 2 * 2 * 3 :=
  (read_frame_tight_length_iff ⟨2, 2, 8, 3, 16, 1, some 0, 0⟩ ⟨16, fun i => i⟩
      0 (by norm_num)).1.mp (by constructor <;> simp [slot_offset, slotFits])

lemma rowsSpec_join_row (mem : Nat → Nat) (pitch tight : Nat) :
    ∀ (n : Nat) (src i : Nat), i < n →
      ((rowsSpec mem pitch tight src n).flatten.drop (i * tight)).take tight =
        (List.range' (src + i * pitch) tight).map mem := by
  intro n
  induction n with
  | zero => intro src i h; omega
  | succ n ih =>
      intro src i hi
      have hrowlen : ((List.range' src tight).map mem).length = tight := by
        simp
      cases i with
      | zero =>
          simp only [rowsSpec, List.flatten_cons, Nat.zero_mul, List.drop_zero,
            Nat.zero_mul, Nat.add_zero]
          exact List.take_left' hrowlen
      | succ i =>
          have hstep : (i + 1) * tight = tight + i * tight := by ring
          rw [rowsSpec, List.flatten_cons, hstep, ← List.drop_drop,
            List.drop_left' hrowlen, ih (src + pitch) i (by omega)]
          congr 2
          ring

lemma repack_go_spec (mem : Nat → Nat) (size pitch tight : Nat)
    (hpt : tight ≤ pitch) :
    ∀ (n : Nat) (out : List Nat) (src dst : Nat),
      src + n * pitch ≤ size → dst + n * tight ≤ out.length →
      repack_go mem size pitch tight n out src dst =
        out.take dst ++ (rowsSpec mem pitch tight src n).flatten ++
          out.drop (dst + n * tight) := by
  intro n
  induction n with
  | zero =>
      intro out src dst _ _
      simp [repack_go, rowsSpec, List.take_append_drop]
  | succ n ih =>
      intro out src dst hsrc hdst
      have hrow : src + tight ≤ size := by nlinarith [hsrc]
      have hchunk : pySlice mem size src (src + tight) =
          (List.range' src tight).map mem := by
        rw [pySlice_of_le mem hrow, Nat.add_sub_cancel_left]
      have hd : dst + tight ≤ out.length := by nlinarith [hdst]
      have hlen1 :
          (out.take dst ++ (List.range' src tight).map mem).length =
            dst + tight := by
        simp only [List.length_append, List.length_take, List.length_map,
          List.length_range']
        omega
      have hsp : spliceAt out dst ((List.range' src tight).map mem) tight =
          (out.take dst ++ (List.range' src tight).map mem) ++
            out.drop (dst + tight) := by
        simp [spliceAt, List.append_assoc]
      have htk :
          (spliceAt out dst ((List.range' src tight).map mem) tight).take
            (dst + tight) = out.take dst ++ (List.range' src tight).map mem := by
        rw [hsp]; exact List.take_left' hlen1
      have hdr :
          (spliceAt out dst ((List.range' src tight).map mem) tight).drop
            (dst + tight + n * tight) = out.drop (dst + tight + n * tight) := by
        have h1 : (spliceAt out dst ((List.range' src tight).map mem)
            tight).drop (dst + tight) = out.drop (dst + tight) := by
          rw [hsp]; exact List.drop_left' hlen1
        rw [← List.drop_drop, h1, List.drop_drop]
      have hlen2 :
          (spliceAt out dst ((List.range' src tight).map mem) tight).length =
            out.length := by
        refine spliceAt_length hd ?_
        simp
      rw [repack_go, hchunk, ih _ _ _ (by nlinarith [hsrc])
        (by rw [hlen2]; nlinarith [hdst]), htk, hdr, rowsSpec]
      have hidx : dst + (n + 1) * tight = dst + tight + n * tight := by ring
      rw [hidx]
      simp [List.append_assoc]

/-- C5: when the slot fits and `pitch ≥ fb_w * bpp`, the tight-pitch branch
returns the slot extent byte-for-byte, and the pitched branch returns a buffer
whose `i`-th tight row equals the `fb_w * bpp` segment bytes starting at
`slot_offset + i * pitch`. -/
theorem read_frame_tight_content (g : Geometry) (seg : Segment) (slot : Int)
    (hp : g.fb_w * g.bpp ≤ g.pitch) (hfit : slotFits g seg slot) :
    ∃ buf, read_frame_tight g seg slot = some buf ∧
      (g.pitch = g.fb_w * g.bpp →
        buf = (List.range' (slot_offset g slot).toNat
          (g.pitch * g.fb_h)).map seg.mem) ∧
      (g.fb_w * g.bpp < g.pitch → ∀ i, i < g.fb_h →
        (buf.drop (i * (g.fb_w * g.bpp))).take (g.fb_w * g.bpp) =
          (List.range' ((slot_offset g slot).toNat + i * g.pitch)
            (g.fb_w * g.bpp)).map seg.mem) := by
  obtain ⟨h0, hsz⟩ := hfit
  have hcond : ¬ (slot_offset g slot < 0 ∨
      (seg.size : Int) < slot_offset g slot + (g.pitch * g.fb_h : Nat)) := by
    push_neg; exact ⟨h0, hsz⟩
  have hN : ((slot_offset g slot).toNat : Int) = slot_offset g slot :=
    Int.toNat_of_nonneg h0
  have hszN : (slot_offset g slot).toNat + g.pitch * g.fb_h ≤ seg.size := by
    omega
  by_cases htight : g.pitch = g.fb_w * g.bpp
  · refine ⟨pySlice seg.mem seg.size (slot_offset g slot).toNat
      ((slot_offset g slot).toNat + g.pitch * g.fb_h), ?_, fun _ => ?_,
      fun hlt => absurd htight (by omega)⟩
    · unfold read_frame_tight
      rw [if_neg hcond, if_pos htight]
    · rw [pySlice_of_le seg.mem hszN, Nat.add_sub_cancel_left]
  · refine ⟨repack_go seg.mem seg.size g.pitch (g.fb_w * g.bpp) g.fb_h
      (List.replicate (g.fb_w * g.fb_h * g.bpp) 0)
      (slot_offset g slot).toNat 0, ?_, fun heq => absurd heq htight,
      fun _ i hi => ?_⟩
    · unfold read_frame_tight
      rw [if_neg hcond, if_neg htight]
    · have hflat : repack_go seg.mem seg.size g.pitch (g.fb_w * g.bpp) g.fb_h
          (List.replicate (g.fb_w * g.fb_h * g.bpp) 0)
          (slot_offset g slot).toNat 0 =
          (rowsSpec seg.mem g.pitch (g.fb_w * g.bpp)
            (slot_offset g slot).toNat g.fb_h).flatten := by
        rw [repack_go_spec seg.mem seg.size g.pitch (g.fb_w * g.bpp) hp
          g.fb_h _ (slot_offset g slot).toNat 0 (by nlinarith [hszN])
          (by simp only [List.length_replicate]; nlinarith)]
        rw [List.take_zero, Nat.zero_add, List.drop_eq_nil_of_le
          (by simp only [List.length_replicate]; nlinarith)]
        simp
      rw [hflat]
      exact rowsSpec_join_row seg.mem g.pitch (g.fb_w * g.bpp) g.fb_h
        (slot_offset g slot).toNat i hi

/-- Witness for C5 at the same concrete pitched geometry as the C1 witness. -/
theorem read_frame_tight_content_witness :
    ∃ buf, read_frame_tight ⟨2, 2, 8, 3, 16, 1, some 0, 0⟩ ⟨16, fun i => i⟩ 0
        = some buf ∧
      ((8 : Nat) = 2 * 3 →
        buf = (List.range' (slot_offset ⟨2, 2, 8, 3, 16, 1, some 0, 0⟩ 0).toNat
          (8 * 2)).map (fun i => i)) ∧
      ((2 * 3 : Nat) < 8 → ∀ i, i < 2 →
        (buf.drop (i * (2 * 3))).take (2 * 3) =
          (List.range' ((slot_offset ⟨2, 2, 8, 3, 16, 1, some 0, 0⟩ 0).toNat
            + i * 8) (2 * 3)).map (fun i => i)) :=
  read_frame_tight_content ⟨2, 2, 8, 3, 16, 1, some 0, 0⟩ ⟨16, fun i => i⟩ 0
    (by norm_num) (by constructor <;> simp [slot_offset, slotFits])

lemma bestOf_spec (env : ProbeEnv) (off : Nat) :
    bestOf env off = (bestModeSpec env off, (maxPulse env off : Int)) := by
  have e1 : (-1 : Int) < (pulseDp env off .inc32 : Int) := by omega
  by_cases h12 :
      (pulseDp env off .inc32 : Int) < (pulseDp env off .mirror : Int)
  · by_cases h23 :
        (pulseDp env off .mirror : Int) < (pulseDp env off .toggle1 : Int)
    · have hmx : maxPulse env off = pulseDp env off .toggle1 := by
        simp only [maxPulse, modeOrder, List.map, List.foldr]
        omega
      have hfind : bestModeSpec env off = some .toggle1 := by
        simp only [bestModeSpec, modeOrder]
        rw [List.find?_cons_of_neg _ (by simp only [decide_eq_true_eq, hmx]; omega),
          List.find?_cons_of_neg _ (by simp only [decide_eq_true_eq, hmx]; omega),
          List.find?_cons_of_pos _ (by simp only [decide_eq_true_eq, hmx])]
      simp [bestOf, modeOrder, e1, h12, h23, hmx, hfind]
    · have hmx : maxPulse env off = pulseDp env off .mirror := by
        simp only [maxPulse, modeOrder, List.map, List.foldr]
        omega
      have hfind : bestModeSpec env off = some .mirror := by
        simp only [bestModeSpec, modeOrder]
        rw [List.find?_cons_of_neg _ (by simp only [decide_eq_true_eq, hmx]; omega),
          List.find?_cons_of_pos _ (by simp only [decide_eq_true_eq, hmx])]
      simp [bestOf, modeOrder, e1, h12, h23, hmx, hfind]
  · by_cases h13 :
        (pulseDp env off .inc32 : Int) < (pulseDp env off .toggle1 : Int)
    · have hmx : maxPulse env off = pulseDp env off .toggle1 := by
        simp only [maxPulse, modeOrder, List.map, List.foldr]
        omega
      have hfind : bestModeSpec env off = some .toggle1 := by
        simp only [bestModeSpec, modeOrder]
        rw [List.find?_cons_of_neg _ (by simp only [decide_eq_true_eq, hmx]; omega),
          List.find?_cons_of_neg _ (by simp only [decide_eq_true_eq, hmx]; omega),
          List.find?_cons_of_pos _ (by simp only [decide_eq_true_eq, hmx])]
      simp [bestOf, modeOrder, e1, h12, h13, hmx, hfind]
    · have hmx : maxPulse env off = pulseDp env off .inc32 := by
        simp only [maxPulse, modeOrder, List.map, List.foldr]
        omega
      have hfind : bestModeSpec env off = some .inc32 := by
        simp only [bestModeSpec, modeOrder]
        rw [List.find?_cons_of_pos _ (by simp only [decide_eq_true_eq, hmx])]
      simp [bestOf, modeOrder, e1, h12, h13, hmx, hfind]

lemma scan_spec (S : Nat) (env : ProbeEnv) (idx_off margin : Nat)
    (hidx : idx_off + 4 ≤ S) :
    ∀ (cands tried : List Nat),
      (∀ o ∈ cands, o ≠ idx_off → o + 4 ≤ S) →
      (∀ o ∈ tried, passes env margin o = false) →
      (scan S env idx_off margin tried cands).2 =
        match (cands.filter fun o => o ≠ idx_off).find? (passes env margin) with
        | some off => ScanRes.found off (bestModeSpec env off)
        | none => ScanRes.exhausted := by
  intro cands
  induction cands with
  | nil => intro tried _ _; simp [scan]
  | cons off rest ih =>
      intro tried hb htr
      have hbrest : ∀ o ∈ rest, o ≠ idx_off → o + 4 ≤ S := fun o ho =>
        hb o (List.mem_cons_of_mem _ ho)
      by_cases hidxoff : off = idx_off
      · have hfil : (off :: rest).filter (fun o => decide (o ≠ idx_off)) =
            rest.filter (fun o => decide (o ≠ idx_off)) := by
          simp [List.filter_cons, hidxoff]
        rw [scan, if_pos (Or.inl hidxoff), hfil]
        exact ih tried hbrest htr
      · have hfil : (off :: rest).filter (fun o => decide (o ≠ idx_off)) =
            off :: rest.filter (fun o => decide (o ≠ idx_off)) := by
          simp [List.filter_cons, hidxoff]
        by_cases htried : off ∈ tried
        · rw [scan, if_pos (Or.inr htried), hfil,
            List.find?_cons_of_neg _ (by simp [htr off htried])]
          exact ih tried hbrest htr
        · have hskip : ¬ (off = idx_off ∨ off ∈ tried) := by tauto
          have hbnd : idx_off + 4 ≤ S ∧ off + 4 ≤ S :=
            ⟨hidx, hb off (List.mem_cons_self _ _) hidxoff⟩
          have hcond : ((quietDq env off : Int) + margin ≤ (bestOf env off).2) ↔
              passes env margin off = true := by
            rw [bestOf_spec]
            simp only [passes, decide_eq_true_eq]
            omega
          rw [scan, if_neg hskip, if_pos hbnd, hfil]
          by_cases hp : passes env margin off = true
          · rw [if_pos (hcond.mpr hp), List.find?_cons_of_pos _ hp]
            simp [bestOf_spec]
          · have hp' : passes env margin off = false :=
              Bool.not_eq_true _ ▸ (Bool.eq_false_iff.mpr (by simpa using hp))
            rw [if_neg (fun hc => hp (hcond.mp hc)),
              List.find?_cons_of_neg _ (by simp [hp'])]
            refine ih (off :: tried) hbrest ?_
            intro o ho
            rcases List.mem_cons.mp ho with h | h
            · exact h ▸ hp'
            · exact htr o h

lemma scan_exhausted_tried (S : Nat) (env : ProbeEnv) (idx_off margin : Nat) :
    ∀ (cands tried : List Nat),
      (∀ o ∈ tried, passes env margin o = false) →
      (scan S env idx_off margin tried cands).2 = ScanRes.exhausted →
      ∀ o ∈ (scan S env idx_off margin tried cands).1,
        passes env margin o = false := by
  intro cands
  induction cands with
  | nil => intro tried htr _ o ho; exact htr o ho
  | cons off rest ih =>
      intro tried htr hres
      by_cases hskip : off = idx_off ∨ off ∈ tried
      · rw [scan, if_pos hskip] at hres ⊢
        exact ih tried htr hres
      · by_cases hbnd : idx_off + 4 ≤ S ∧ off + 4 ≤ S
        · by_cases hc : ((quietDq env off : Int) + margin ≤ (bestOf env off).2)
          · rw [scan, if_neg hskip, if_pos hbnd, if_pos hc] at hres
            exact absurd hres (by simp)
          · rw [scan, if_neg hskip, if_pos hbnd, if_neg hc] at hres ⊢
            refine ih (off :: tried) ?_ hres
            intro o ho
            rcases List.mem_cons.mp ho with h | h
            · subst h
              have : ¬ passes env margin o = true := fun hp => by
                rw [bestOf_spec] at hc
                simp only [passes, decide_eq_true_eq] at hp
                omega
              simpa using this
            · exact htr o h
        · rw [scan, if_neg hskip, if_neg hbnd] at hres
          exact absurd hres (by simp)

lemma find_ack_spec (S : Nat) (env : ProbeEnv) (idx_off : Nat)
    (ranges : List (Nat × Nat)) (fallback : Nat × Nat) (margin : Nat)
    (hidx : idx_off + 4 ≤ S)
    (hb : ∀ o ∈ candStream ranges fallback, o ≠ idx_off → o + 4 ≤ S) :
    (_find_ack S env idx_off ranges fallback margin).2 =
      match ((candStream ranges fallback).filter
          fun o => o ≠ idx_off).find? (passes env margin) with
      | some off => ScanRes.found off (bestModeSpec env off)
      | none => ScanRes.exhausted := by
  have hbs : ∀ o ∈ ranges.flatMap (fun p => pyRange4 p.1 p.2),
      o ≠ idx_off → o + 4 ≤ S := by
    intro o ho
    exact hb o (by simp [candStream, List.mem_append, ho])
  have hbf : ∀ o ∈ pyRange4 fallback.1 fallback.2, o ≠ idx_off → o + 4 ≤ S := by
    intro o ho
    exact hb o (by simp [candStream, List.mem_append, ho])
  have hsplit : (candStream ranges fallback).filter (fun o => decide (o ≠ idx_off)) =
      (ranges.flatMap (fun p => pyRange4 p.1 p.2)).filter
        (fun o => decide (o ≠ idx_off)) ++
      (pyRange4 fallback.1 fallback.2).filter (fun o => decide (o ≠ idx_off)) := by
    simp [candStream, List.filter_append]
  have hsmall := scan_spec S env idx_off margin hidx
    (ranges.flatMap fun p => pyRange4 p.1 p.2) [] hbs (by simp)
  rcases hscan : scan S env idx_off margin []
      (ranges.flatMap fun p => pyRange4 p.1 p.2) with ⟨tried1, res1⟩
  rw [hscan] at hsmall
  rcases hfirst : (((ranges.flatMap fun p => pyRange4 p.1 p.2)).filter
      (fun o => decide (o ≠ idx_off))).find? (passes env margin) with _ | off1
  · rw [hfirst] at hsmall
    simp only at hsmall
    subst hsmall
    have htr1 : ∀ o ∈ tried1, passes env margin o = false := by
      have := scan_exhausted_tried S env idx_off margin
        (ranges.flatMap fun p => pyRange4 p.1 p.2) [] (by simp)
        (by rw [hscan])
      rw [hscan] at this
      exact this
    have hfall := scan_spec S env idx_off margin hidx
      (pyRange4 fallback.1 fallback.2) tried1 hbf htr1
    simp only [_find_ack, hscan]
    rw [hsplit, List.find?_append, hfirst, Option.none_or]
    exact hfall
  · rw [hfirst] at hsmall
    simp only at hsmall
    subst hsmall
    simp only [_find_ack, hscan]
    rw [hsplit, List.find?_append, hfirst]
    simp [Option.or]

/-- C2: when every probed word lies inside the segment, `_find_ack` returns
the first candidate — ranges at 4-byte stride then fallback, `idx_off` and
duplicates skipped — whose best pulse delta (greatest over the fixed mode
order `inc32, mirror, toggle1`, ties to the earlier mode) satisfies
`Δp ≥ Δq + margin`, paired with that best mode, and scans no further. -/
theorem find_ack_first_passing (S : Nat) (env : ProbeEnv) (idx_off : Nat)
    (ranges : List (Nat × Nat)) (fallback : Nat × Nat) (margin : Nat)
    (hidx : idx_off + 4 ≤ S)
    (hb : ∀ o ∈ candStream ranges fallback, o ≠ idx_off → o + 4 ≤ S) :
    (_find_ack S env idx_off ranges fallback margin).2 =
      match ((candStream ranges fallback).filter
          fun o => o ≠ idx_off).find? (passes env margin) with
      | some off => ScanRes.found off (bestModeSpec env off)
      | none => ScanRes.exhausted :=
  find_ack_spec S env idx_off ranges fallback margin hidx hb

/-- Witness for C2: in `probeEnvW`, with ranges `[(0x14, 0x1C)]` and fallback
`(0x20, 0x28)`, the scan finds offset `0x18` with mode `mirror`. -/
theorem find_ack_first_passing_witness :
    (_find_ack 0x100 probeEnvW 0x10 [(0x14, 0x1C)] (0x20, 0x28) 2).2 =
      match ((candStream [(0x14, 0x1C)] (0x20, 0x28)).filter
          fun o => o ≠ 0x10).find? (passes probeEnvW 2) with
      | some off => ScanRes.found off (bestModeSpec probeEnvW off)
      | none => ScanRes.exhausted :=
  find_ack_first_passing 0x100 probeEnvW 0x10 [(0x14, 0x1C)] (0x20, 0x28) 2
    (by norm_num) (by decide)

lemma ensure_writes (S flag_off flag_mask : Nat) (mem : Nat → Nat) :
    ∀ o ∈ (_ensure_connected S flag_off flag_mask mem).1.2, o = flag_off := by
  unfold _ensure_connected
  split_ifs <;> simp

lemma set_bits_go_keys (S idx_off : Nat) :
    ∀ (l : List (Nat × Nat)) (m : Nat → Nat) (ws : List (Nat × Nat)),
      (∀ q ∈ ws, q.1 ≠ idx_off) →
      ∀ q ∈ (set_bits_go S idx_off l m ws).1.2, q.1 ≠ idx_off := by
  intro l
  induction l with
  | nil => intro m ws hws q hq; exact hws q hq
  | cons p rest ih =>
      intro m ws hws q hq
      by_cases h1 : p.1 = idx_off
      · rw [set_bits_go, if_pos h1] at hq
        exact ih m ws hws q hq
      · by_cases h2 : p.1 + 4 ≤ S
        · by_cases h3 : m p.1 ||| (p.2 &&& 0xFFFFFFFF) ≠ m p.1
          · rw [set_bits_go, if_neg h1, if_pos h2, if_pos h3] at hq
            refine ih _ _ ?_ q hq
            intro q' hq'
            rcases List.mem_append.mp hq' with h | h
            · exact hws q' h
            · simp only [List.mem_singleton] at h
              rw [h]
              exact h1
          · rw [set_bits_go, if_neg h1, if_pos h2, if_neg h3] at hq
            exact ih m ws hws q hq
        · rw [set_bits_go, if_neg h1, if_neg h2] at hq
          exact hws q hq

lemma scan_tried_ne (S : Nat) (env : ProbeEnv) (idx_off margin : Nat) :
    ∀ (cands tried : List Nat), (∀ o ∈ tried, o ≠ idx_off) →
      ∀ o ∈ (scan S env idx_off margin tried cands).1, o ≠ idx_off := by
  intro cands
  induction cands with
  | nil => intro tried htr o ho; exact htr o ho
  | cons c rest ih =>
      intro tried htr o ho
      by_cases hskip : c = idx_off ∨ c ∈ tried
      · rw [scan, if_pos hskip] at ho
        exact ih tried htr o ho
      · have hc : c ≠ idx_off := fun h => hskip (Or.inl h)
        have hcons : ∀ o' ∈ c :: tried, o' ≠ idx_off := by
          intro o' ho'
          rcases List.mem_cons.mp ho' with h | h
          · exact h ▸ hc
          · exact htr o' h
        by_cases hbnd : idx_off + 4 ≤ S ∧ c + 4 ≤ S
        · by_cases hp : ((quietDq env c : Int) + margin ≤ (bestOf env c).2)
          · rw [scan, if_neg hskip, if_pos hbnd, if_pos hp] at ho
            exact hcons o ho
          · rw [scan, if_neg hskip, if_pos hbnd, if_neg hp] at ho
            exact ih (c :: tried) hcons o ho
        · rw [scan, if_neg hskip, if_neg hbnd] at ho
          exact hcons o ho

lemma scan_found_ne (S : Nat) (env : ProbeEnv) (idx_off margin : Nat) :
    ∀ (cands tried : List Nat) (off : Nat) (m : Option Mode),
      (scan S env idx_off margin tried cands).2 = ScanRes.found off m →
      off ≠ idx_off := by
  intro cands
  induction cands with
  | nil => intro tried off m h; exact absurd h (by simp [scan])
  | cons c rest ih =>
      intro tried off m h
      by_cases hskip : c = idx_off ∨ c ∈ tried
      · rw [scan, if_pos hskip] at h
        exact ih tried off m h
      · have hc : c ≠ idx_off := fun hcc => hskip (Or.inl hcc)
        by_cases hbnd : idx_off + 4 ≤ S ∧ c + 4 ≤ S
        · by_cases hp : ((quietDq env c : Int) + margin ≤ (bestOf env c).2)
          · rw [scan, if_neg hskip, if_pos hbnd, if_pos hp] at h
            simp only [ScanRes.found.injEq] at h
            exact h.1 ▸ hc
          · rw [scan, if_neg hskip, if_pos hbnd, if_neg hp] at h
            exact ih (c :: tried) off m h
        · rw [scan, if_neg hskip, if_neg hbnd] at h
          exact absurd h (by simp)

lemma find_ack_tried_ne (S : Nat) (env : ProbeEnv) (idx_off : Nat)
    (ranges : List (Nat × Nat)) (fallback : Nat × Nat) (margin : Nat) :
    ∀ o ∈ (_find_ack S env idx_off ranges fallback margin).1, o ≠ idx_off := by
  rcases hscan : scan S env idx_off margin []
      (ranges.flatMap fun p => pyRange4 p.1 p.2) with ⟨t1, r1⟩
  have h1 : ∀ o ∈ t1, o ≠ idx_off := by
    have := scan_tried_ne S env idx_off margin
      (ranges.flatMap fun p => pyRange4 p.1 p.2) [] (by simp)
    rw [hscan] at this
    exact this
  cases r1 with
  | oob => simp only [_find_ack, hscan]; exact h1
  | exhausted =>
      simp only [_find_ack, hscan]
      exact scan_tried_ne S env idx_off margin
        (pyRange4 fallback.1 fallback.2) t1 h1
  | found a mm => simp only [_find_ack, hscan]; exact h1

lemma find_ack_found_ne (S : Nat) (env : ProbeEnv) (idx_off : Nat)
    (ranges : List (Nat × Nat)) (fallback : Nat × Nat) (margin : Nat)
    (off : Nat) (m : Option Mode) :
    (_find_ack S env idx_off ranges fallback margin).2 = ScanRes.found off m →
    off ≠ idx_off := by
  rcases hscan : scan S env idx_off margin []
      (ranges.flatMap fun p => pyRange4 p.1 p.2) with ⟨t1, r1⟩
  cases r1 with
  | oob => simp only [_find_ack, hscan]; intro h; exact absurd h (by simp)
  | exhausted =>
      simp only [_find_ack, hscan]
      exact scan_found_ne S env idx_off margin
        (pyRange4 fallback.1 fallback.2) t1 off m
  | found a mm =>
      simp only [_find_ack, hscan]
      intro h
      simp only [ScanRes.found.injEq] at h
      exact h.1 ▸ scan_found_ne S env idx_off margin
        (ranges.flatMap fun p => pyRange4 p.1 p.2) [] a mm (by rw [hscan])

/-- C6 (amended): provided the connection-flag word is not the index word
(`flag_off ≠ idx_off`, as with the protocol defaults), no write of the
preflight — connection flag, set-bits, candidate probes, warm pump —
targets `idx_off`, whatever the segment, environment and arguments. -/
theorem preflight_never_writes_idx (S : Nat) (magic : Bool) (mem0 : Nat → Nat)
    (env : ProbeEnv) (pumpIters : Nat) (idx_off flag_off flag_mask : Nat)
    (ranges : List (Nat × Nat)) (fallback : Nat × Nat) (margin : Nat)
    (hne : flag_off ≠ idx_off) :
    idx_off ∉ (warm_boot_and_find_ack S magic mem0 env pumpIters idx_off
      flag_off flag_mask ranges fallback margin).1 := by
  unfold warm_boot_and_find_ack
  by_cases hm : magic = false
  · rw [if_pos hm]; simp
  · rw [if_neg hm]
    rcases hens : _ensure_connected S flag_off flag_mask mem0
      with ⟨⟨m1, w1⟩, err1⟩
    have hw1 : idx_off ∉ w1 := by
      intro h
      have heq := ensure_writes S flag_off flag_mask mem0 idx_off
        (by rw [hens]; exact h)
      exact hne heq.symm
    cases err1 with
    | some e => simp only [hens]; exact hw1
    | none =>
        rcases hsb : apply_set_bits S idx_off m1 with ⟨⟨m2, ws⟩, err2⟩
        have hws : idx_off ∉ ws.map Prod.fst := by
          intro h
          obtain ⟨q, hq, hq1⟩ := List.mem_map.mp h
          refine set_bits_go_keys S idx_off SET_BITS m1 [] (by simp) q ?_ hq1
          unfold apply_set_bits at hsb
          rw [hsb]
          exact hq
        cases err2 with
        | some e =>
            simp only [hens, hsb]
            simp [List.mem_append, hw1, hws]
        | none =>
            rcases hfa : _find_ack S env idx_off ranges fallback margin
              with ⟨tried, res⟩
            have htried : idx_off ∉ tried := by
              intro h
              have := find_ack_tried_ne S env idx_off ranges fallback margin
                idx_off (by rw [hfa]; exact h)
              exact this rfl
            cases res with
            | oob =>
                simp only [hens, hsb, hfa, List.mem_append]
                push_neg
                exact ⟨⟨hw1, fun hc => absurd hc hws⟩, htried⟩
            | exhausted =>
                simp only [hens, hsb, hfa, List.mem_append]
                push_neg
                exact ⟨⟨hw1, fun hc => absurd hc hws⟩, htried⟩
            | found ack mode =>
                have hack : ack ≠ idx_off :=
                  find_ack_found_ne S env idx_off ranges fallback margin
                    ack mode (by rw [hfa])
                simp only [hens, hsb, hfa, List.mem_append]
                push_neg
                refine ⟨⟨⟨hw1, fun hc => absurd hc hws⟩, htried⟩, ?_⟩
                intro h
                exact hack ((List.eq_of_mem_replicate h).symm ▸ rfl)

/-- Witness for C6 (amended) at the protocol defaults `idx_off = 0x10`,
`flag_off = 0x13C`. -/
theorem preflight_never_writes_idx_witness :
    (0x10 : Nat) ∉ (warm_boot_and_find_ack 0x1000 true (fun _ => 0) probeEnv0
      1 0x10 0x13C 4 [(0x14, 0x18)] (0x20, 0x24) 0).1 :=
  preflight_never_writes_idx 0x1000 true (fun _ => 0) probeEnv0 1 0x10 0x13C 4
    [(0x14, 0x18)] (0x20, 0x24) 0 (by norm_num)

/-- C6 counterexample: with `flag_off = idx_off = 0x10` and the flag bit
clear, the connection-flag write of the preflight does target `idx_off`, so
the claim fails for arbitrary arguments. -/
theorem preflight_writes_idx_counterexample :
    (0x10 : Nat) ∈ (warm_boot_and_find_ack 0x1000 true (fun _ => 0) probeEnv0
      1 0x10 0x10 4 [(0x14, 0x18)] (0x20, 0x24) 0).1 := by decide

lemma ensure_ok (S flag_off flag_mask : Nat) (mem : Nat → Nat)
    (h : flag_off + 4 ≤ S) :
    (_ensure_connected S flag_off flag_mask mem).2 = none := by
  unfold _ensure_connected
  rw [if_pos h]
  split_ifs <;> rfl

lemma set_bits_go_ok (S idx_off : Nat) :
    ∀ (l : List (Nat × Nat)) (m : Nat → Nat) (ws : List (Nat × Nat)),
      (∀ p ∈ l, p.1 ≠ idx_off → p.1 + 4 ≤ S) →
      (set_bits_go S idx_off l m ws).2 = none := by
  intro l
  induction l with
  | nil => intro m ws _; rfl
  | cons p rest ih =>
      intro m ws hb
      have hbrest : ∀ q ∈ rest, q.1 ≠ idx_off → q.1 + 4 ≤ S := fun q hq =>
        hb q (List.mem_cons_of_mem _ hq)
      by_cases h1 : p.1 = idx_off
      · rw [set_bits_go, if_pos h1]
        exact ih m ws hbrest
      · rw [set_bits_go, if_neg h1,
          if_pos (hb p (List.mem_cons_self _ _) h1)]
        split_ifs <;> exact ih _ _ hbrest

/-- C7 (amended): provided every word the preflight touches lies inside the
segment (the flag word, the non-skipped set-bits words, the index word and
every candidate of the ranges and fallback), the preflight fails with the
ack-not-found error iff no candidate — `idx_off` excluded — passes the
margin test `Δp ≥ Δq + margin`.  (With a segment shorter than the scanned
offsets the scan instead aborts with an out-of-bounds error.) -/
theorem preflight_ack_not_found_iff (S : Nat) (mem0 : Nat → Nat)
    (env : ProbeEnv) (pumpIters : Nat) (idx_off flag_off flag_mask : Nat)
    (ranges : List (Nat × Nat)) (fallback : Nat × Nat) (margin : Nat)
    (hflag : flag_off + 4 ≤ S)
    (hsb : ∀ p ∈ SET_BITS, p.1 ≠ idx_off → p.1 + 4 ≤ S)
    (hidx : idx_off + 4 ≤ S)
    (hb : ∀ o ∈ candStream ranges fallback, o ≠ idx_off → o + 4 ≤ S) :
    (warm_boot_and_find_ack S true mem0 env pumpIters idx_off flag_off
        flag_mask ranges fallback margin).2 = Except.error PfError.ackNotFound
      ↔ ∀ o ∈ candStream ranges fallback, o ≠ idx_off →
          passes env margin o = false := by
  unfold warm_boot_and_find_ack
  rw [if_neg (by simp)]
  rcases hens : _ensure_connected S flag_off flag_mask mem0
    with ⟨⟨m1, w1⟩, err1⟩
  have herr1 : err1 = none := by
    have := ensure_ok S flag_off flag_mask mem0 hflag
    rw [hens] at this
    exact this
  subst herr1
  rcases hsb2 : apply_set_bits S idx_off m1 with ⟨⟨m2, ws⟩, err2⟩
  have herr2 : err2 = none := by
    have := set_bits_go_ok S idx_off SET_BITS m1 [] hsb
    unfold apply_set_bits at hsb2
    rw [hsb2] at this
    exact this
  subst herr2
  rcases hfa : _find_ack S env idx_off ranges fallback margin
    with ⟨tried, res⟩
  have hres := find_ack_spec S env idx_off ranges fallback margin hidx hb
  rw [hfa] at hres
  simp only at hres
  rcases hfind : ((candStream ranges fallback).filter
      fun o => decide (o ≠ idx_off)).find? (passes env margin) with _ | off
  · rw [hfind] at hres
    simp only at hres
    subst hres
    simp only [hens, hsb2, hfa]
    constructor
    · intro _ o ho hone
      have hmem : o ∈ (candStream ranges fallback).filter
          fun o => decide (o ≠ idx_off) :=
        List.mem_filter.mpr ⟨ho, by simp [hone]⟩
      have := List.find?_eq_none.mp hfind o hmem
      simpa using this
    · intro _; trivial
  · rw [hfind] at hres
    simp only at hres
    subst hres
    simp only [hens, hsb2, hfa]
    constructor
    · intro h
      exact absurd h (by simp)
    · intro hall
      have hoff : off ∈ (candStream ranges fallback).filter
          fun o => decide (o ≠ idx_off) := List.mem_of_find?_eq_some hfind
      have hone : off ≠ idx_off := by
        have := (List.mem_filter.mp hoff).2
        simpa using this
      have hpass := List.find?_some hfind
      have := hall off (List.mem_filter.mp hoff).1 hone
      rw [this] at hpass
      exact absurd hpass (by simp)

/-- Witness for C7 (amended): an in-bounds configuration in which nothing
passes, so the preflight surfaces the ack-not-found error. -/
theorem preflight_ack_not_found_iff_witness :
    (warm_boot_and_find_ack 0x1000 true (fun _ => 0) probeEnv0 0 0x10 0x13C 4
        [(0x14, 0x1C)] (0x20, 0x28) 2).2 = Except.error PfError.ackNotFound
      ↔ ∀ o ∈ candStream [(0x14, 0x1C)] (0x20, 0x28), o ≠ 0x10 →
          passes probeEnv0 2 o = false :=
  preflight_ack_not_found_iff 0x1000 (fun _ => 0) probeEnv0 0 0x10 0x13C 4
    [(0x14, 0x1C)] (0x20, 0x28) 2 (by norm_num) (by decide) (by norm_num)
    (by decide)

/-- C7 counterexample: a 0x700-byte segment with fallback reaching 0x800 —
no candidate ever passes, yet the preflight aborts with the out-of-bounds
error, not ack-not-found: the claim fails for arbitrary segment sizes. -/
theorem preflight_oob_counterexample :
    (warm_boot_and_find_ack 0x700 true (fun _ => 0) probeEnv0 0 0x10 0x13C 4
        [] (0x680, 0x800) 2).2 = Except.error PfError.oob ∧
    (warm_boot_and_find_ack 0x700 true (fun _ => 0) probeEnv0 0 0x10 0x13C 4
        [] (0x680, 0x800) 2).2 ≠ Except.error PfError.ackNotFound ∧
    ((candStream [] (0x680, 0x800)).all
      fun o => decide (o = 0x10) || !passes probeEnv0 2 o) = true := by
  decide

lemma or_mask_absorb (a c : Nat) :
    ((a ||| (c &&& 0xFFFFFFFF)) &&& 0xFFFFFFFF) ||| (c &&& 0xFFFFFFFF) =
      (a ||| (c &&& 0xFFFFFFFF)) &&& 0xFFFFFFFF := by
  apply Nat.eq_of_testBit_eq
  intro i
  simp only [Nat.testBit_or, Nat.testBit_and]
  generalize a.testBit i = x
  generalize c.testBit i = y
  generalize (0xFFFFFFFF : Nat).testBit i = z
  cases x <;> cases y <;> cases z <;> rfl

lemma set_bits_go_outside (S idx_off : Nat) :
    ∀ (l : List (Nat × Nat)) (m : Nat → Nat) (ws : List (Nat × Nat)) (o : Nat),
      o ∉ l.map Prod.fst → (set_bits_go S idx_off l m ws).1.1 o = m o := by
  intro l
  induction l with
  | nil => intro m ws o _; rfl
  | cons p rest ih =>
      intro m ws o ho
      rw [List.map_cons, List.mem_cons] at ho
      push_neg at ho
      by_cases h1 : p.1 = idx_off
      · rw [set_bits_go, if_pos h1]
        exact ih m ws o ho.2
      · by_cases h2 : p.1 + 4 ≤ S
        · by_cases h3 : m p.1 ||| (p.2 &&& 0xFFFFFFFF) ≠ m p.1
          · rw [set_bits_go, if_neg h1, if_pos h2, if_pos h3,
              ih _ _ o ho.2, updateW, if_neg ho.1]
          · rw [set_bits_go, if_neg h1, if_pos h2, if_neg h3]
            exact ih m ws o ho.2
        · rw [set_bits_go, if_neg h1, if_neg h2]

lemma set_bits_go_idem (S idx_off : Nat) :
    ∀ (l : List (Nat × Nat)) (m : Nat → Nat) (ws0 : List (Nat × Nat))
      (m1 : Nat → Nat) (ws : List (Nat × Nat)),
      (l.map Prod.fst).Nodup →
      set_bits_go S idx_off l m ws0 = ((m1, ws), none) →
      (∀ p ∈ l, p.1 ≠ idx_off →
        m1 p.1 ||| (p.2 &&& 0xFFFFFFFF) = m1 p.1) ∧
      ∀ ws', set_bits_go S idx_off l m1 ws' = ((m1, ws'), none) := by
  intro l
  induction l with
  | nil =>
      intro m ws0 m1 ws _ h
      rw [set_bits_go] at h
      simp only [Prod.mk.injEq] at h
      obtain ⟨⟨hm, -⟩, -⟩ := h
      constructor
      · intro p hp; exact absurd hp (List.not_mem_nil p)
      · intro ws'; rfl
  | cons p rest ih =>
      intro m ws0 m1 ws hnd h
      rw [List.map_cons, List.nodup_cons] at hnd
      obtain ⟨hp1, hndr⟩ := hnd
      by_cases h1 : p.1 = idx_off
      · rw [set_bits_go, if_pos h1] at h
        obtain ⟨hsat, hrun⟩ := ih m ws0 m1 ws hndr h
        refine ⟨?_, ?_⟩
        · intro q hq hqi
          rcases List.mem_cons.mp hq with hh | hh
          · exact absurd (hh ▸ h1) hqi
          · exact hsat q hh hqi
        · intro ws'
          rw [set_bits_go, if_pos h1]
          exact hrun ws'
      · by_cases h2 : p.1 + 4 ≤ S
        · by_cases h3 : m p.1 ||| (p.2 &&& 0xFFFFFFFF) ≠ m p.1
          · rw [set_bits_go, if_neg h1, if_pos h2, if_pos h3] at h
            obtain ⟨hsat, hrun⟩ := ih _ _ m1 ws hndr h
            have hm1p : m1 p.1 =
                (m p.1 ||| (p.2 &&& 0xFFFFFFFF)) &&& 0xFFFFFFFF := by
              have := set_bits_go_outside S idx_off rest
                (updateW m p.1 (m p.1 ||| (p.2 &&& 0xFFFFFFFF)))
                (ws0 ++ [(p.1, (m p.1 ||| (p.2 &&& 0xFFFFFFFF)) &&& 0xFFFFFFFF)])
                p.1 hp1
              rw [h] at this
              simpa [updateW] using this
            have hsathead : m1 p.1 ||| (p.2 &&& 0xFFFFFFFF) = m1 p.1 := by
              rw [hm1p]
              exact or_mask_absorb (m p.1) p.2
            refine ⟨?_, ?_⟩
            · intro q hq hqi
              rcases List.mem_cons.mp hq with hh | hh
              · rw [hh]; exact hsathead
              · exact hsat q hh hqi
            · intro ws'
              rw [set_bits_go, if_neg h1, if_pos h2,
                if_neg (by simpa using hsathead)]
              exact hrun ws'
          · rw [set_bits_go, if_neg h1, if_pos h2, if_neg h3] at h
            obtain ⟨hsat, hrun⟩ := ih m ws0 m1 ws hndr h
            have hm1p : m1 p.1 = m p.1 := by
              have := set_bits_go_outside S idx_off rest m ws0 p.1 hp1
              rw [h] at this
              exact this
            have hsathead : m1 p.1 ||| (p.2 &&& 0xFFFFFFFF) = m1 p.1 := by
              rw [hm1p]
              simpa using h3
            refine ⟨?_, ?_⟩
            · intro q hq hqi
              rcases List.mem_cons.mp hq with hh | hh
              · rw [hh]; exact hsathead
              · exact hsat q hh hqi
            · intro ws'
              rw [set_bits_go, if_neg h1, if_pos h2,
                if_neg (by simpa using hsathead)]
              exact hrun ws'
        · rw [set_bits_go, if_neg h1, if_neg h2] at h
          exact absurd h (by simp)

/-- C9: after one successful application of the set-bits table every word
the application touches is saturated (`w ||| mask = w`), so a second
application leaves the word map unchanged and issues no writes. -/
theorem set_bits_idempotent (S idx_off : Nat) (mem m1 : Nat → Nat)
    (ws : List (Nat × Nat))
    (h : apply_set_bits S idx_off mem = ((m1, ws), none)) :
    (∀ p ∈ SET_BITS, p.1 ≠ idx_off →
      m1 p.1 ||| (p.2 &&& 0xFFFFFFFF) = m1 p.1) ∧
    apply_set_bits S idx_off m1 = ((m1, []), none) := by
  have hnd : (SET_BITS.map Prod.fst).Nodup := by decide
  obtain ⟨hsat, hsecond⟩ :=
    set_bits_go_idem S idx_off SET_BITS mem [] m1 ws hnd h
  exact ⟨hsat, hsecond []⟩

/-- Witness for C9: the table applied to the all-zero word map of a
0x1000-byte segment with the default `idx_off`. -/
theorem set_bits_idempotent_witness :
    (∀ p ∈ SET_BITS, p.1 ≠ 0x10 →
      (apply_set_bits 0x1000 0x10 fun _ => 0).1.1 p.1 |||
          (p.2 &&& 0xFFFFFFFF) =
        (apply_set_bits 0x1000 0x10 fun _ => 0).1.1 p.1) ∧
    apply_set_bits 0x1000 0x10 (apply_set_bits 0x1000 0x10 fun _ => 0).1.1 =
      (((apply_set_bits 0x1000 0x10 fun _ => 0).1.1, []), none) :=
  set_bits_idempotent 0x1000 0x10 (fun _ => 0)
    (apply_set_bits 0x1000 0x10 fun _ => 0).1.1
    (apply_set_bits 0x1000 0x10 fun _ => 0).1.2 (by rfl)

/-- C3: `_classify` implements exactly the claimed decision tree — in
particular the `"unknown"` fallback of the problematic branch is dead code,
since at least one applicable reason always exists there. -/
theorem classify_eq_spec (m : Monitor) (now : ℚ) :
    _classify m now = classifySpec m now := by
  unfold _classify classifySpec
  by_cases h1 : rate m.fpsSamples ≤ m.fps_dead
  · simp only [if_pos h1]
  · simp only [if_neg h1]
    by_cases h2 : m.fps_ok ≤ rate m.fpsSamples ∧
        (if m.flag_mask ≠ 0 then
          decide ((m.last_val m.flag_off &&& m.flag_mask) ≠ 0) else true) =
          true ∧
        (m.preds.all fun p =>
          (p.2).check now (m.last_val p.1) (m.hist p.1)) = true
    · simp only [if_pos h2]
    · simp only [if_neg h2]
      refine congrArg _ ?_
      rw [if_neg]
      simp only [List.isEmpty_eq_true, List.append_eq_nil, ← ne_eq]
      push_neg at h2
      intro hcon
      obtain ⟨⟨hc1, hc2⟩, hc3⟩ := hcon
      have hok : m.fps_ok ≤ rate m.fpsSamples := by
        by_contra hlt
        rw [if_pos (lt_of_not_le hlt)] at hc1
        exact (List.cons_ne_nil _ _) hc1
      cases hmm : (if m.flag_mask ≠ 0 then
          decide ((m.last_val m.flag_off &&& m.flag_mask) ≠ 0) else true) with
      | false =>
          rw [if_pos hmm] at hc2
          exact (List.cons_ne_nil _ _) hc2
      | true =>
          cases hpp : (m.preds.all fun p =>
              (p.2).check now (m.last_val p.1) (m.hist p.1)) with
          | false =>
              rw [if_pos hpp] at hc3
              exact (List.cons_ne_nil _ _) hc3
          | true => exact h2 hok hmm hpp

/-- C4 counterexample: across an index wrap (`0xFFFFFFFF` then `1` one
second later, two producer increments), the preflight's wrapping delta
reports the true count 2, but `RateMeter.rate`'s plain clamped subtraction
reports 0 — the rate meter's value difference is not wrapping. -/
theorem rate_not_wrapping_counterexample :
    rate [((0 : ℚ), 4294967295), ((1 : ℚ), 1)] = 0 ∧
    _idx_delta 4294967295 1 = 2 := by
  constructor
  · norm_num [rate]
  · decide

/-- C4 (amended): the preflight quiet delta (`_idx_delta`) and pulse delta
(`pulseDp`) are wrapping 32-bit subtractions, recovering the true increment
count across a wrap; the rate meter's value difference is instead a plain
subtraction clamped below at 0, so whenever the last sampled value does not
exceed the first (as after a wrap) the reported rate is 0. -/
theorem deltas_wrap_but_rate_clamps :
    (∀ start c : Nat, c < 4294967296 →
      _idx_delta start ((start + c) % 4294967296) = c) ∧
    (∀ (env : ProbeEnv) (off : Nat) (m : Mode),
      pulseDp env off m = _idx_delta (env.pulseStart off m)
        (env.pulseEnd off m)) ∧
    (∀ (t0 t1 : ℚ) (v0 v1 : Nat), v1 ≤ v0 →
      rate [(t0, v0), (t1, v1)] = 0) := by
  refine ⟨?_, fun _ _ _ => rfl, ?_⟩
  · intro start c hc
    simp only [_idx_delta, wrap32]
    omega
  · intro t0 t1 v0 v1 h
    have hden : (0 : ℚ) < max (1 / 1000000) (t1 - t0) :=
      lt_of_lt_of_le (by norm_num) (le_max_left _ _)
    have hnum : ((v1 : ℚ) - (v0 : ℚ)) ≤ 0 := by
      have : (v1 : ℚ) ≤ (v0 : ℚ) := by exact_mod_cast h
      linarith
    have hq : ((v1 : ℚ) - (v0 : ℚ)) / max (1 / 1000000) (t1 - t0) ≤ 0 :=
      div_nonpos_of_nonpos_of_nonneg hnum hden.le
    simp only [rate]
    norm_num
    exact hq

/-- C8 (code bug): without `--health-relaxed` on the CLI the override is
still in force — `args.health_relaxed or True` is always true — so a raw
`problematic` verdict at fps 28 against `fps_ok = 30` is reported `ok`
even with the flag clear, where the claim requires the raw verdict. -/
theorem health_relaxed_flag_ignored :
    health_relaxed_arg false = true ∧
    relaxed_override (health_relaxed_arg false) Status.problematic 28 30 =
      Status.ok := by
  constructor
  · rfl
  · rw [relaxed_override, if_pos]
    exact ⟨rfl, by simp, by norm_num⟩

/-- C10: `on_scroll` emits, per non-zero axis direction, exactly the wheel
pulse with the bit 8 (up), 16 (down), 32 (right) or 64 (left), vertical
axis first, and leaves the stored button mask unchanged (wheel bits never
latch). -/
theorem on_scroll_pulses (btn_mask xr yr : Nat) (dx dy : ℚ) :
    (on_scroll btn_mask xr yr dx dy).1 =
      (if 0 < dy then wheelPulse btn_mask xr yr 8
        else if dy < 0 then wheelPulse btn_mask xr yr 16 else []) ++
      (if 0 < dx then wheelPulse btn_mask xr yr 32
        else if dx < 0 then wheelPulse btn_mask xr yr 64 else []) ∧
    (on_scroll btn_mask xr yr dx dy).2 = btn_mask := by
  constructor
  · unfold on_scroll wheelPulse
    rfl
  · rfl

end LGClient
